import Mathlib

/-!
Shallow embedding of the Crypto Price Alert engine (src/main.py).

Strings are modelled as `List Char`; Python floats as `ℚ` for the engine's
prices and, where NaN and the infinities matter (the target-price parse of
rule creation and editing), as an explicit `PyFloat`; the network is
modelled by an outcome function assigning to each price source either a
price or an error message.
-/

namespace CryptoAlert

/-- Python whitespace characters recognised by `str.strip()`. -/
def isPySpace (c : Char) : Bool :=
  c == ' ' || c == '\t' || c == '\n' || c == '\r' || c == Char.ofNat 11 || c == Char.ofNat 12

/-- Python `str.strip()`: drop leading and trailing whitespace. -/
def pyStrip (s : List Char) : List Char :=
  ((s.dropWhile isPySpace).reverse.dropWhile isPySpace).reverse

/-- ASCII upper-casing of one character, as Python `str.upper()` does on ASCII. -/
def upperChar (c : Char) : Char :=
  if 'a' ≤ c ∧ c ≤ 'z' then Char.ofNat (c.toNat - 32) else c

/-- Python `str.upper()` on an ASCII string. -/
def pyUpper (s : List Char) : List Char := s.map upperChar

/-- Python `str.replace(ch, "")`: remove every occurrence of `ch`. -/
def removeCh (ch : Char) (s : List Char) : List Char := s.filter (fun c => c ≠ ch)

/-- The cleaning step of `normalize_symbol`:
`(sym or "").strip().upper().replace("/", "").replace("-", "")`. -/
def cleanSym (s : List Char) : List Char :=
  removeCh '-' (removeCh '/' (pyUpper (pyStrip s)))

/-- Python `str.endswith(q)`. -/
def endsWithL (s q : List Char) : Bool :=
  s.reverse.take q.length == q.reverse

/-- `normalize_symbol(sym, assume_quote)` from src/main.py lines 79–85. -/
def normalize_symbol (sym q : List Char) : List Char :=
  let s := cleanSym sym
  if s = [] then []
  else if s.length ≤ 5 ∧ endsWithL s q = false then s ++ q
  else s

/-- The cleaning used by the per-source translators (`_sym_binance` etc.):
`sym.upper().replace("/", "").replace("-", "")` — note: no strip. -/
def cleanNoStrip (s : List Char) : List Char :=
  removeCh '-' (removeCh '/' (pyUpper s))

/-- `_sym_binance`: identity on symbols ending in USDT, else append USDT when short. -/
def sym_binance (sym : List Char) : List Char :=
  let s := cleanNoStrip sym
  if endsWithL s ("USDT".toList) then s
  else if s.length ≤ 5 then s ++ "USDT".toList
  else s

/-- `_sym_bybit` delegates to `_sym_binance`. -/
def sym_bybit (sym : List Char) : List Char := sym_binance sym

/-- `_sym_bitunix` delegates to `_sym_binance`. -/
def sym_bitunix (sym : List Char) : List Char := sym_binance sym

/-- `_sym_coinbase`: strip trailing USDT, append "-USD". -/
def sym_coinbase (sym : List Char) : List Char :=
  let s := cleanNoStrip sym
  let base := if endsWithL s ("USDT".toList) then s.take (s.length - 4) else s
  base ++ "-USD".toList

/-- `_sym_upbit`: strip trailing USDT, prefix "USDT-". -/
def sym_upbit (sym : List Char) : List Char :=
  let s := cleanNoStrip sym
  let base := if endsWithL s ("USDT".toList) then s.take (s.length - 4) else s
  "USDT-".toList ++ base

/-- `_sym_okx`: strip trailing USDT, append "-USDT". -/
def sym_okx (sym : List Char) : List Char :=
  let s := cleanNoStrip sym
  let base := if endsWithL s ("USDT".toList) then s.take (s.length - 4) else s
  base ++ "-USDT".toList

/-! ### The price-source chain (`fetch_price_multi`, src/main.py lines 119–198) -/

/-- The six price sources, in the code's fixed consultation order. -/
inductive Source
  | binance
  | bitunix
  | bybit
  | coinbase
  | upbit
  | okx
deriving DecidableEq

/-- Source name used in error-list entries (matches the f-strings in the code). -/
def sourceName : Source → String
  | .binance => "Binance"
  | .bitunix => "BitUnix"
  | .bybit => "Bybit"
  | .coinbase => "Coinbase"
  | .upbit => "Upbit"
  | .okx => "OKX"

/-- The fixed consultation order of `fetch_price_multi`. -/
def sourceOrder : List Source :=
  [.binance, .bitunix, .bybit, .coinbase, .upbit, .okx]

/-- One entry appended to the error list: `f"SourceName: e"`. -/
def errEntry (s : Source) (e : String) : String :=
  sourceName s ++ ": " ++ e

/-- An outcome assignment: each source either succeeds with a price or fails
with an error message (the `str(e)` of the caught exception). -/
abbrev OutcomeFn := Source → Except String ℚ

/-- The error message of a failing outcome (dummy "" on success). -/
def errMsgOf : Except String ℚ → String
  | .error e => e
  | .ok _ => ""

/-- Whether a per-source outcome is a failure. -/
def isErrO : Except String ℚ → Bool
  | .error _ => true
  | .ok _ => false

deriving instance DecidableEq for Except

/-- Result of one `fetch_price_multi` run: the returned value (or the raised
error with its accumulated error list), the sources consulted, and the
accumulated error list at the moment of return. -/
structure FetchRes where
  result : Except (List String) ℚ
  consulted : List Source
  errs : List String
deriving DecidableEq

/-- Whether a fetch result is the raised `AllSourcesFailed` error. -/
def isErrR : Except (List String) ℚ → Bool
  | .error _ => true
  | .ok _ => false

/-- The sequential fallback loop of `fetch_price_multi`: try each source in
order, return on first success, accumulate one error entry per failure,
raise with the full list when every source failed. -/
def fetchGo (o : OutcomeFn) : List Source → List String → FetchRes
  | [], acc => ⟨.error acc, [], acc⟩
  | s :: rest, acc =>
    match o s with
    | .ok p => ⟨.ok p, [s], acc⟩
    | .error e =>
      let r := fetchGo o rest (acc ++ [errEntry s e])
      ⟨r.result, s :: r.consulted, r.errs⟩

/-- `fetch_price_multi` over an outcome assignment. -/
def fetch_price_multi (o : OutcomeFn) : FetchRes :=
  fetchGo o sourceOrder []

/-! ### Alert evaluation and the polling cycle (`check_prices`, src/main.py lines 684–726) -/

/-- One stored alert rule (a "coin" dict in the code): id, normalized symbol,
target price, and the condition string ("\x3e=" or "\x3c=") which may be absent. -/
structure Coin where
  id : Nat
  symbol : List Char
  target_price : ℚ
  condition : Option String
deriving DecidableEq

/-- The hit test of `check_prices` (src/main.py lines 703–705):
`cond = coin.get("condition", ">=")`, then
`hit = (price >= target) if cond == ">=" else (price <= target)`. -/
def evalHit (cond : Option String) (price target : ℚ) : Bool :=
  if cond.getD (">=") = ">=" then decide (price ≥ target) else decide (price ≤ target)

/-- The status-line message set at the end of `check_prices`. -/
inductive StatusMsg
  | noAlerts
  | lastCheckOk
  | lastCheckErrors (n : ℕ)
deriving DecidableEq

/-- Observable effects of one `check_prices` invocation, in emission order. -/
inductive Event
  | warnDialog (sym : List Char)
  | logFail (sym : List Char) (err : String)
  | alarmOpen (sym : List Char) (target price : ℚ)
  | saveStore (coins : List Coin)
  | statusSet (m : StatusMsg)
deriving DecidableEq

/-- A price-resolution function, as `check_prices` uses `fetch_price_multi`:
either a price or the raised error's message string. -/
abbrev FetchFn := List Char → Except String ℚ

/-- Processing of one coin inside the loop of `check_prices`: on fetch failure,
a warning dialog plus a log line plus one error recorded; on success, evaluate
the condition and on hit open an alarm window and record the id for removal. -/
def processCoin (f : FetchFn) (c : Coin) : List Event × List String × List Nat :=
  match f c.symbol with
  | .error e => ([.warnDialog c.symbol, .logFail c.symbol e], [e], [])
  | .ok p =>
    if evalHit c.condition p c.target_price
    then ([.alarmOpen c.symbol c.target_price p], [], [c.id])
    else ([], [], [])

/-- Events emitted by the per-coin loop, in order. -/
def cycleEvents (f : FetchFn) (coins : List Coin) : List Event :=
  (coins.map (fun c => (processCoin f c).1)).flatten

/-- The `last_errors` list accumulated by the loop. -/
def cycleErrs (f : FetchFn) (coins : List Coin) : List String :=
  (coins.map (fun c => (processCoin f c).2.1)).flatten

/-- The `to_remove_ids` list accumulated by the loop. -/
def cycleRemove (f : FetchFn) (coins : List Coin) : List Nat :=
  (coins.map (fun c => (processCoin f c).2.2)).flatten

/-- `check_prices` (src/main.py lines 684–726): empty list short-circuits to a
"no alerts" status; otherwise loop over a snapshot of the coins, then — only
after the loop — filter out the triggered ids, persist once if any, and set
the status line once (error count if any fetch failed, else OK). -/
def check_prices (f : FetchFn) (coins : List Coin) : List Coin × List Event :=
  if coins = [] then (coins, [.statusSet .noAlerts])
  else
    let rem := cycleRemove f coins
    let errs := cycleErrs f coins
    let coins' := if rem = [] then coins else coins.filter (fun c => decide (c.id ∉ rem))
    let saveEvs : List Event := if rem = [] then [] else [.saveStore coins']
    let st := if errs = [] then StatusMsg.lastCheckOk else .lastCheckErrors errs.length
    (coins', cycleEvents f coins ++ saveEvs ++ [.statusSet st])

/-- Whether price resolution fails for this coin. -/
def coinFailed (f : FetchFn) (c : Coin) : Bool :=
  isErrO (f c.symbol)

/-- The error message recorded for a failing coin ("" on success). -/
def errOf (f : FetchFn) (c : Coin) : String :=
  errMsgOf (f c.symbol)

/-- The fetched price of a coin (dummy 0 on failure). -/
def priceOf (f : FetchFn) (c : Coin) : ℚ :=
  match f c.symbol with
  | .ok p => p
  | .error _ => 0

/-- Whether this coin's rule triggers: fetch succeeds and the condition hits. -/
def coinTriggered (f : FetchFn) (c : Coin) : Bool :=
  match f c.symbol with
  | .ok p => evalHit c.condition p c.target_price
  | .error _ => false

/-- Event classifiers. -/
def isWarn : Event → Bool
  | .warnDialog _ => true
  | _ => false

def isLog : Event → Bool
  | .logFail _ _ => true
  | _ => false

def isAlarm : Event → Bool
  | .alarmOpen _ _ _ => true
  | _ => false

def isSave : Event → Bool
  | .saveStore _ => true
  | _ => false

def isStatus : Event → Bool
  | .statusSet _ => true
  | _ => false

/-- The status message a run ends with (dummy `noAlerts` if the trace were
not to end in a status event). -/
def finalStatus (f : FetchFn) (coins : List Coin) : StatusMsg :=
  match (check_prices f coins).2.getLast? with
  | some (.statusSet m) => m
  | _ => .noAlerts

/-! ### Rule creation and editing (`add_alert` lines 588–619, `validate` lines 310–327) -/

/-- The value produced by a successful Python `float(price_raw)` parse: a
finite value (a dyadic rational, embedded in ℚ), one of the two infinities
(`float("inf")`, `float("-inf")`), or NaN (`float("nan")`) — all of which
`float()` accepts without raising. A raising parse is modelled separately as
`none` at the call sites. -/
inductive PyFloat
  | num (q : ℚ)
  | inf
  | negInf
  | nan
deriving DecidableEq

/-- Python's `price <= 0` on the parsed float, with IEEE comparison semantics:
false for NaN (every comparison with NaN is false) and for `+inf`, true for
`-inf` and for non-positive finite values. -/
def pyLe0 : PyFloat → Bool
  | .num q => decide (q ≤ 0)
  | .inf => false
  | .negInf => true
  | .nan => false

/-- Whether a parsed float is a positive (finite) decimal value, as the spec's
"positive decimal" requires; NaN and the infinities are not. -/
def isPosDecimal : PyFloat → Bool
  | .num q => decide (0 < q)
  | _ => false

/-- The coin dict appended to the store by `add_alert` (src/main.py lines
607–612): the float target is stored exactly as parsed. -/
structure CoinEntry where
  id : Nat
  symbol : List Char
  target_price : PyFloat
  condition : Option String
deriving DecidableEq

/-- `add_alert`: normalize the symbol and reject if empty; parse the price
(`priceParsed = none` models a raising `float()` conversion, `some p` a
successful parse including NaN and the infinities) and reject iff the Python
comparison `price <= 0` is true; reject an unrecognized condition; otherwise
append the new rule and persist. Returns the resulting rule list. -/
def add_alert (coins : List CoinEntry) (newId : Nat) (symRaw q : List Char)
    (priceParsed : Option PyFloat) (cond : String) : List CoinEntry :=
  let sym := normalize_symbol symRaw q
  if sym = [] then coins
  else
    match priceParsed with
    | none => coins
    | some p =>
      if pyLe0 p then coins
      else if cond = ">=" ∨ cond = "<=" then coins ++ [⟨newId, sym, p, some cond⟩]
      else coins

/-- `EditCoinDialog.validate`: the same three checks; on success produce the
validated `(symbol, target_price, condition)` triple, else reject. -/
def validate (symRaw q : List Char) (priceParsed : Option PyFloat) (cond : String) :
    Option (List Char × PyFloat × String) :=
  let sym := normalize_symbol symRaw q
  if sym = [] then none
  else
    match priceParsed with
    | none => none
    | some p =>
      if pyLe0 p then none
      else if cond = ">=" ∨ cond = "<=" then some (sym, p, cond)
      else none

/-- A resolution function where every symbol resolves to price 10. -/
def fetchOk10 : FetchFn := fun _ => .ok 10

/-- A resolution function where every symbol fails with a fixed message. -/
def fetchFailNet : FetchFn := fun _ => .error ("All price sources failed: Binance: down")

/-! ## Helper lemmas -/

/-- Appending the quote always yields a string that ends with the quote. -/
theorem endsWithL_append (c q : List Char) : endsWithL (c ++ q) q = true := by
  unfold endsWithL
  rw [List.reverse_append]
  rw [show q.length = q.reverse.length from (List.length_reverse q).symm]
  rw [List.take_left]
  simp

/-- A clean-fixed string is returned unchanged by `normalize_symbol` whenever
it is empty, already ends with the quote, or is longer than 5 characters. -/
theorem normalize_symbol_fixed (o q : List Char) (hc : cleanSym o = o)
    (hcase : o = [] ∨ endsWithL o q = true ∨ 5 < o.length) :
    normalize_symbol o q = o := by
  unfold normalize_symbol
  rw [hc]
  rcases hcase with h1 | h1 | h1
  · simp [h1]
  · by_cases ho : o = []
    · simp [ho]
    · rw [if_neg ho, if_neg]
      simp [h1]
  · by_cases ho : o = []
    · simp [ho]
    · rw [if_neg ho, if_neg]
      intro hcon
      omega

/-- The output of `normalize_symbol` is empty, ends with the quote, or is
longer than 5 characters. -/
theorem normalize_symbol_cases (s q : List Char) :
    normalize_symbol s q = [] ∨ endsWithL (normalize_symbol s q) q = true ∨
      5 < (normalize_symbol s q).length := by
  unfold normalize_symbol
  by_cases hc : cleanSym s = []
  · simp [hc]
  · rw [if_neg hc]
    by_cases hcond : (cleanSym s).length ≤ 5 ∧ endsWithL (cleanSym s) q = false
    · rw [if_pos hcond]
      exact Or.inr (Or.inl (endsWithL_append _ _))
    · rw [if_neg hcond]
      rcases Decidable.not_and_iff_or_not.mp hcond with h | h
      · exact Or.inr (Or.inr (by omega))
      · exact Or.inr (Or.inl (by simpa using h))

/-! ## Claim theorems -/

/-- C7 (counterexample): `normalize_symbol` is not idempotent for every symbol
and quote. For the raw symbol "- A-" with the default quote "USDT", the first
normalization yields " AUSDT" (the separator removal exposes an inner space),
but normalizing that output again strips the space and yields "AUSDT". -/
theorem normalize_symbol_not_idempotent :
    normalize_symbol (normalize_symbol ("- A-".toList) ("USDT".toList)) ("USDT".toList) ≠
      normalize_symbol ("- A-".toList) ("USDT".toList) := by
  decide

/-- C7 (amended): `normalize_symbol` is idempotent on every input whose first
normalization is a fixed point of the cleaning step (strip, upper-case,
separator removal) — in particular for every symbol without interior
whitespace together with an upper-case, separator-free quote such as the
default "USDT". -/
theorem normalize_symbol_idempotent_of_clean (s q : List Char)
    (h : cleanSym (normalize_symbol s q) = normalize_symbol s q) :
    normalize_symbol (normalize_symbol s q) q = normalize_symbol s q :=
  normalize_symbol_fixed _ _ h (normalize_symbol_cases s q)

/-- C7 witness: the amended idempotence applies to the concrete input
"btc" with quote "USDT". -/
theorem normalize_symbol_idempotent_witness :
    cleanSym (normalize_symbol ("btc".toList) ("USDT".toList)) =
        normalize_symbol ("btc".toList) ("USDT".toList) ∧
      normalize_symbol (normalize_symbol ("btc".toList) ("USDT".toList)) ("USDT".toList) =
        normalize_symbol ("btc".toList) ("USDT".toList) :=
  ⟨by decide, normalize_symbol_idempotent_of_clean ("btc".toList) ("USDT".toList) (by decide)⟩

/-- C8: for every canonical symbol (upper-case, free of "/" and "-") ending in
the default quote "USDT", the Binance/Bybit/BitUnix translators return the
symbol unchanged, the Coinbase translator strips the trailing "USDT" and
appends "-USD", the Upbit translator strips the trailing "USDT" and prefixes
"USDT-", and the OKX translator strips the trailing "USDT" and appends
"-USDT". -/
theorem per_source_translators (s : List Char)
    (hup : pyUpper s = s) (hsl : '/' ∉ s) (hda : '-' ∉ s)
    (hend : endsWithL s ("USDT".toList) = true) :
    sym_binance s = s ∧ sym_bybit s = s ∧ sym_bitunix s = s ∧
      sym_coinbase s = s.take (s.length - 4) ++ "-USD".toList ∧
      sym_upbit s = "USDT-".toList ++ s.take (s.length - 4) ∧
      sym_okx s = s.take (s.length - 4) ++ "-USDT".toList := by
  have hclean : cleanNoStrip s = s := by
    unfold cleanNoStrip removeCh
    rw [hup]
    rw [List.filter_eq_self.mpr, List.filter_eq_self.mpr]
    · intro a ha
      simp only [ne_eq, decide_eq_true_eq]
      intro hcon
      exact hsl (hcon ▸ ha)
    · intro a ha
      simp only [ne_eq, decide_eq_true_eq]
      intro hcon
      exact hda (hcon ▸ List.mem_of_mem_filter ha)
  have hend2 : endsWithL s (['U', 'S', 'D', 'T']) = true := hend
  refine ⟨?_, ?_, ?_, ?_, ?_, ?_⟩ <;>
    simp [sym_binance, sym_bybit, sym_bitunix, sym_coinbase, sym_upbit, sym_okx, hclean, hend2]

/-- C8 witness: the translator formats at the concrete canonical symbol
"BTCUSDT". -/
theorem per_source_translators_witness :
    sym_binance ("BTCUSDT".toList) = "BTCUSDT".toList ∧
      sym_bybit ("BTCUSDT".toList) = "BTCUSDT".toList ∧
      sym_bitunix ("BTCUSDT".toList) = "BTCUSDT".toList ∧
      sym_coinbase ("BTCUSDT".toList) = "BTC-USD".toList ∧
      sym_upbit ("BTCUSDT".toList) = "USDT-BTC".toList ∧
      sym_okx ("BTCUSDT".toList) = "BTC-USDT".toList := by
  have h := per_source_translators ("BTCUSDT".toList) (by decide) (by decide) (by decide)
    (by decide)
  refine ⟨h.1, h.2.1, h.2.2.1, ?_, ?_, ?_⟩
  · rw [h.2.2.2.1]; decide
  · rw [h.2.2.2.2.1]; decide
  · rw [h.2.2.2.2.2]; decide

/-- Running the chain over a failing prefix followed by a succeeding source:
return that source's price at once, consult nothing later, and accumulate one
error entry per preceding source. -/
theorem fetchGo_success (o : OutcomeFn) (p : ℚ) (pre : List Source)
    (hpre : ∀ s ∈ pre, isErrO (o s) = true) (s : Source) (rest : List Source)
    (acc : List String) (hs : o s = .ok p) :
    fetchGo o (pre ++ s :: rest) acc =
      ⟨.ok p, pre ++ [s], acc ++ pre.map (fun t => errEntry t (errMsgOf (o t)))⟩ := by
  induction pre generalizing acc with
  | nil => simp [fetchGo, hs]
  | cons t pre ih =>
    have ht : isErrO (o t) = true := hpre t (by simp)
    cases h : o t with
    | ok _ => rw [h] at ht; simp [isErrO] at ht
    | error e =>
      have hrec := ih (fun u hu => hpre u (by simp [hu])) (acc ++ [errEntry t e])
      simp only [List.cons_append, fetchGo, h]
      simp [hrec, h, errMsgOf, List.append_assoc]

/-- The chain raises iff every source in the list fails. -/
theorem fetchGo_isErr (o : OutcomeFn) (l : List Source) (acc : List String) :
    isErrR (fetchGo o l acc).result = true ↔ ∀ s ∈ l, isErrO (o s) = true := by
  induction l generalizing acc with
  | nil => simp [fetchGo, isErrR]
  | cons s l ih =>
    cases h : o s with
    | ok p => simp [fetchGo, h, isErrR, isErrO]
    | error e => simp [fetchGo, h, isErrO, ih]

/-- When every source in the list fails, the chain raises carrying one error
entry per source, in order. -/
theorem fetchGo_allFail (o : OutcomeFn) (l : List Source) (acc : List String)
    (h : ∀ s ∈ l, isErrO (o s) = true) :
    fetchGo o l acc =
      ⟨.error (acc ++ l.map fun t => errEntry t (errMsgOf (o t))), l,
        acc ++ l.map fun t => errEntry t (errMsgOf (o t))⟩ := by
  induction l generalizing acc with
  | nil => simp [fetchGo]
  | cons s l ih =>
    have hs : isErrO (o s) = true := h s (by simp)
    cases hos : o s with
    | ok _ => rw [hos] at hs; simp [isErrO] at hs
    | error e =>
      have hrec := ih (acc ++ [errEntry s e]) (fun u hu => h u (by simp [hu]))
      simp only [fetchGo, hos, hrec, errMsgOf]
      simp [hos, errMsgOf]

/-- C1: for every outcome assignment with some succeeding source,
`fetch_price_multi` — consulting the fixed order Binance, BitUnix, Bybit,
Coinbase, Upbit, OKX — returns the price of the first succeeding source
(position `i`), consults exactly the sources up to and including it (never a
later one), and at the moment of return the accumulated error list holds
exactly one entry per preceding failed source, in source order. -/
theorem fetch_price_multi_first_success (o : OutcomeFn) (i : ℕ) (hi : i < 6) (p : ℚ)
    (hfail : ∀ s ∈ sourceOrder.take i, isErrO (o s) = true)
    (hok : o (sourceOrder.get ⟨i, hi⟩) = .ok p) :
    (fetch_price_multi o).result = .ok p ∧
      (fetch_price_multi o).consulted = sourceOrder.take (i + 1) ∧
      (fetch_price_multi o).errs =
        (sourceOrder.take i).map (fun t => errEntry t (errMsgOf (o t))) ∧
      (fetch_price_multi o).errs.length = i := by
  have hlen : i < sourceOrder.length := hi
  have hdecomp : sourceOrder =
      sourceOrder.take i ++ sourceOrder.get ⟨i, hi⟩ :: sourceOrder.drop (i + 1) := by
    conv_lhs => rw [← List.take_append_drop i sourceOrder]
    rw [List.drop_eq_getElem_cons hlen]
    rfl
  have hrun := fetchGo_success o p (sourceOrder.take i) hfail (sourceOrder.get ⟨i, hi⟩)
    (sourceOrder.drop (i + 1)) [] hok
  rw [← hdecomp] at hrun
  unfold fetch_price_multi
  rw [hrun]
  refine ⟨rfl, ?_, by simp, ?_⟩
  · show sourceOrder.take i ++ [sourceOrder.get ⟨i, hi⟩] = sourceOrder.take (i + 1)
    rw [← List.take_concat_get sourceOrder i hlen, List.concat_eq_append]
    rfl
  · show ([] ++ (sourceOrder.take i).map fun t => errEntry t (errMsgOf (o t))).length = i
    simp [List.length_take]
    omega

/-- C1 witness: Binance fails with "down", every later source succeeds with
price 5; the chain returns 5 from BitUnix, consults only Binance and BitUnix,
and the error list at that point is exactly the Binance entry. -/
theorem fetch_price_multi_first_success_witness :
    (fetch_price_multi
        (fun s => if s = Source.binance then .error ("down") else .ok 5)).result = .ok 5 ∧
      (fetch_price_multi
        (fun s => if s = Source.binance then .error ("down") else .ok 5)).consulted =
        [Source.binance, Source.bitunix] ∧
      (fetch_price_multi
        (fun s => if s = Source.binance then .error ("down") else .ok 5)).errs =
        ["Binance: down"] := by
  have h := fetch_price_multi_first_success
    (fun s => if s = Source.binance then .error ("down") else .ok 5) 1 (by omega) 5
    (by decide) (by decide)
  exact ⟨h.1, by rw [h.2.1]; decide, by rw [h.2.2.1]; decide⟩

/-- C2: `fetch_price_multi` raises the `AllSourcesFailed` error (RuntimeError)
iff all six sources fail, and then the raised error carries one entry per
source — all six of them, in source order, none omitted. -/
theorem fetch_price_multi_all_fail (o : OutcomeFn) :
    (isErrR (fetch_price_multi o).result = true ↔
      ∀ s ∈ sourceOrder, isErrO (o s) = true) ∧
    ((∀ s ∈ sourceOrder, isErrO (o s) = true) →
      (fetch_price_multi o).result =
          .error (sourceOrder.map fun t => errEntry t (errMsgOf (o t))) ∧
        (fetch_price_multi o).errs =
          sourceOrder.map (fun t => errEntry t (errMsgOf (o t))) ∧
        (fetch_price_multi o).errs.length = 6) := by
  constructor
  · exact fetchGo_isErr o sourceOrder []
  · intro h
    have hrun := fetchGo_allFail o sourceOrder [] h
    unfold fetch_price_multi
    rw [hrun]
    refine ⟨by simp, by simp, ?_⟩
    simp [sourceOrder]

/-- C2 witness: when every source fails with "timeout", the result is the
raised error carrying the six entries in source order. -/
theorem fetch_price_multi_all_fail_witness :
    isErrR (fetch_price_multi (fun _ => .error ("timeout"))).result = true ∧
      (fetch_price_multi (fun _ => .error ("timeout"))).errs =
        ["Binance: timeout", "BitUnix: timeout", "Bybit: timeout",
          "Coinbase: timeout", "Upbit: timeout", "OKX: timeout"] ∧
      (fetch_price_multi (fun _ => .error ("timeout"))).errs.length = 6 := by
  have h := (fetch_price_multi_all_fail (fun _ => .error ("timeout"))).2 (by decide)
  refine ⟨?_, ?_, h.2.2⟩
  · rw [h.1]; decide
  · rw [h.2.1]; decide

/-- `evalHit` on an explicit "\x3e=" condition is the direct `≥` comparison. -/
theorem evalHit_some_ge (p t : ℚ) : evalHit (some (">=")) p t = decide (p ≥ t) := by
  unfold evalHit
  rw [if_pos]
  rfl

/-- `evalHit` on an absent condition defaults to the `≥` comparison. -/
theorem evalHit_none (p t : ℚ) : evalHit none p t = decide (p ≥ t) := by
  unfold evalHit
  rw [if_pos]
  rfl

/-- `evalHit` on any condition string other than "\x3e=" is the direct `≤`
comparison. -/
theorem evalHit_some_ne (p t : ℚ) (c : String) (hc : c ≠ ">=") :
    evalHit (some c) p t = decide (p ≤ t) := by
  unfold evalHit
  rw [show (some c).getD (">=") = c from rfl, if_neg hc]

/-- C3: the evaluator reports a hit iff `price ≥ target` under the
GreaterOrEqual ("\x3e=") condition and iff `price ≤ target` under the
LessOrEqual ("\x3c=") condition; in particular, price equal to the target is
a hit under both conditions. The comparison is the direct rational order with
no epsilon tolerance. -/
theorem evalHit_conditions (p t : ℚ) :
    (evalHit (some (">=")) p t = true ↔ p ≥ t) ∧
      (evalHit (some ("<=")) p t = true ↔ p ≤ t) ∧
      evalHit (some (">=")) t t = true ∧ evalHit (some ("<=")) t t = true := by
  refine ⟨?_, ?_, ?_, ?_⟩
  · rw [evalHit_some_ge]
    exact decide_eq_true_iff
  · rw [evalHit_some_ne p t ("<=") (by decide)]
    exact decide_eq_true_iff
  · rw [evalHit_some_ge]
    simp
  · rw [evalHit_some_ne t t ("<=") (by decide)]
    simp

/-- C10: during evaluation a rule with an absent condition field is evaluated
as GreaterOrEqual (the "\x3e=" default), and a rule whose condition is any
string other than "\x3e=" — the "\x3c=" literal or any unrecognized value —
is evaluated with the `price ≤ target` semantics; evaluation is total and
never rejects a condition value. -/
theorem evalHit_condition_default (p t : ℚ) (c : String) (hc : c ≠ ">=") :
    evalHit none p t = decide (p ≥ t) ∧ evalHit (some c) p t = decide (p ≤ t) :=
  ⟨evalHit_none p t, evalHit_some_ne p t c hc⟩

/-- C10 witness: the default and the fallback at the concrete price 3,
target 2 and the unrecognized condition string "=\x3c". -/
theorem evalHit_condition_default_witness :
    evalHit none 3 2 = decide ((3 : ℚ) ≥ 2) ∧
      evalHit (some ("=<")) 3 2 = decide ((3 : ℚ) ≤ 2) :=
  ⟨(evalHit_condition_default 3 2 ("=<") (by decide)).1,
    (evalHit_condition_default 3 2 ("=<") (by decide)).2⟩

/-- The per-coin events, stated through the coin classifiers. -/
theorem processCoin_evs (f : FetchFn) (c : Coin) :
    (processCoin f c).1 =
      if coinFailed f c then [.warnDialog c.symbol, .logFail c.symbol (errOf f c)]
      else if coinTriggered f c then [.alarmOpen c.symbol c.target_price (priceOf f c)]
      else [] := by
  cases h : f c.symbol with
  | error e => simp [processCoin, coinFailed, coinTriggered, errOf, errMsgOf, priceOf, isErrO, h]
  | ok p =>
    by_cases hhit : evalHit c.condition p c.target_price = true <;>
      simp [processCoin, coinFailed, coinTriggered, priceOf, isErrO, h, hhit]

/-- The per-coin error contribution, stated through `coinFailed`. -/
theorem processCoin_errs (f : FetchFn) (c : Coin) :
    (processCoin f c).2.1 = if coinFailed f c then [errOf f c] else [] := by
  cases h : f c.symbol with
  | error e => simp [processCoin, coinFailed, errOf, errMsgOf, isErrO, h]
  | ok p =>
    by_cases hhit : evalHit c.condition p c.target_price = true <;>
      simp [processCoin, coinFailed, isErrO, h, hhit]

/-- The per-coin removal contribution, stated through `coinTriggered`. -/
theorem processCoin_rem (f : FetchFn) (c : Coin) :
    (processCoin f c).2.2 = if coinTriggered f c then [c.id] else [] := by
  cases h : f c.symbol with
  | error e => simp [processCoin, coinTriggered, isErrO, h]
  | ok p =>
    by_cases hhit : evalHit c.condition p c.target_price = true <;>
      simp [processCoin, coinTriggered, h, hhit]

theorem cycleEvents_cons (f : FetchFn) (c : Coin) (coins : List Coin) :
    cycleEvents f (c :: coins) = (processCoin f c).1 ++ cycleEvents f coins := by
  simp [cycleEvents]

theorem cycleErrs_cons (f : FetchFn) (c : Coin) (coins : List Coin) :
    cycleErrs f (c :: coins) = (processCoin f c).2.1 ++ cycleErrs f coins := by
  simp [cycleErrs]

theorem cycleRemove_cons (f : FetchFn) (c : Coin) (coins : List Coin) :
    cycleRemove f (c :: coins) = (processCoin f c).2.2 ++ cycleRemove f coins := by
  simp [cycleRemove]

/-- The loop's `last_errors` list is exactly one error per failing coin,
in rule order. -/
theorem cycleErrs_eq (f : FetchFn) (coins : List Coin) :
    cycleErrs f coins = (coins.filter (coinFailed f)).map (errOf f) := by
  induction coins with
  | nil => rfl
  | cons c coins ih =>
    rw [cycleErrs_cons, processCoin_errs, ih]
    by_cases hf : coinFailed f c = true <;> simp [List.filter_cons, hf]

/-- The loop's `to_remove_ids` list is exactly the ids of the triggered coins,
in rule order. -/
theorem cycleRemove_eq (f : FetchFn) (coins : List Coin) :
    cycleRemove f coins = (coins.filter (coinTriggered f)).map Coin.id := by
  induction coins with
  | nil => rfl
  | cons c coins ih =>
    rw [cycleRemove_cons, processCoin_rem, ih]
    by_cases ht : coinTriggered f c = true <;> simp [List.filter_cons, ht]

/-- The warning dialogs emitted by the loop: one per failing coin, in order. -/
theorem cycleEvents_filter_warn (f : FetchFn) (coins : List Coin) :
    (cycleEvents f coins).filter isWarn =
      (coins.filter (coinFailed f)).map (fun c => Event.warnDialog c.symbol) := by
  induction coins with
  | nil => rfl
  | cons c coins ih =>
    rw [cycleEvents_cons, List.filter_append, processCoin_evs, ih]
    by_cases hf : coinFailed f c = true
    · simp [List.filter_cons, hf, isWarn]
    · by_cases ht : coinTriggered f c = true <;> simp [List.filter_cons, hf, ht, isWarn]

/-- The log entries emitted by the loop: one per failing coin, in order. -/
theorem cycleEvents_filter_log (f : FetchFn) (coins : List Coin) :
    (cycleEvents f coins).filter isLog =
      (coins.filter (coinFailed f)).map (fun c => Event.logFail c.symbol (errOf f c)) := by
  induction coins with
  | nil => rfl
  | cons c coins ih =>
    rw [cycleEvents_cons, List.filter_append, processCoin_evs, ih]
    by_cases hf : coinFailed f c = true
    · simp [List.filter_cons, hf, isLog]
    · by_cases ht : coinTriggered f c = true <;> simp [List.filter_cons, hf, ht, isLog]

/-- The alarms emitted by the loop: exactly one per triggered coin, in order. -/
theorem cycleEvents_filter_alarm (f : FetchFn) (coins : List Coin) :
    (cycleEvents f coins).filter isAlarm =
      (coins.filter (coinTriggered f)).map
        (fun c => Event.alarmOpen c.symbol c.target_price (priceOf f c)) := by
  induction coins with
  | nil => rfl
  | cons c coins ih =>
    rw [cycleEvents_cons, List.filter_append, processCoin_evs, ih]
    by_cases hf : coinFailed f c = true
    · have ht : coinTriggered f c = false := by
        unfold coinFailed isErrO at hf
        unfold coinTriggered
        cases h : f c.symbol with
        | ok p => rw [h] at hf; simp at hf
        | error e => rfl
      simp [List.filter_cons, hf, ht, isAlarm]
    · by_cases ht : coinTriggered f c = true <;> simp [List.filter_cons, hf, ht, isAlarm]

/-- The loop emits no store write. -/
theorem cycleEvents_filter_save (f : FetchFn) (coins : List Coin) :
    (cycleEvents f coins).filter isSave = [] := by
  induction coins with
  | nil => rfl
  | cons c coins ih =>
    rw [cycleEvents_cons, List.filter_append, processCoin_evs, ih]
    by_cases hf : coinFailed f c = true
    · simp [hf, isSave]
    · by_cases ht : coinTriggered f c = true <;> simp [hf, ht, isSave]

/-- The loop emits no status update. -/
theorem cycleEvents_filter_status (f : FetchFn) (coins : List Coin) :
    (cycleEvents f coins).filter isStatus = [] := by
  induction coins with
  | nil => rfl
  | cons c coins ih =>
    rw [cycleEvents_cons, List.filter_append, processCoin_evs, ih]
    by_cases hf : coinFailed f c = true
    · simp [hf, isStatus]
    · by_cases ht : coinTriggered f c = true <;> simp [hf, ht, isStatus]

/-- Unfolding of `check_prices` on a non-empty rule list. -/
theorem check_prices_unfold (f : FetchFn) (coins : List Coin) (h : ¬coins = []) :
    check_prices f coins =
      ((if cycleRemove f coins = [] then coins
        else coins.filter fun c => decide (c.id ∉ cycleRemove f coins)),
        cycleEvents f coins ++
          (if cycleRemove f coins = [] then []
           else [Event.saveStore (if cycleRemove f coins = [] then coins
             else coins.filter fun c => decide (c.id ∉ cycleRemove f coins))]) ++
          [Event.statusSet (if cycleErrs f coins = [] then StatusMsg.lastCheckOk
            else StatusMsg.lastCheckErrors (cycleErrs f coins).length)]) := by
  unfold check_prices
  rw [if_neg h]

/-- Under distinct rule ids, the post-cycle removal keeps exactly the
non-triggered coins. -/
theorem remove_filter_eq (f : FetchFn) (coins : List Coin)
    (hnd : (coins.map Coin.id).Nodup) :
    (coins.filter fun c => decide (c.id ∉ cycleRemove f coins)) =
      coins.filter (fun c => !coinTriggered f c) := by
  apply List.filter_congr
  intro c hc
  have hiff : c.id ∈ cycleRemove f coins ↔ coinTriggered f c = true := by
    rw [cycleRemove_eq]
    constructor
    · intro hmem
      rcases List.mem_map.mp hmem with ⟨c2, hc2, hid⟩
      have hc2m : c2 ∈ coins := List.mem_of_mem_filter hc2
      have hceq : c2 = c := List.inj_on_of_nodup_map hnd hc2m hc hid
      have := List.of_mem_filter hc2
      rwa [hceq] at this
    · intro htrig
      exact List.mem_map.mpr ⟨c, List.mem_filter.mpr ⟨hc, htrig⟩, rfl⟩
  by_cases ht : coinTriggered f c = true
  · simp [ht, hiff.mpr ht]
  · have hnm : c.id ∉ cycleRemove f coins := fun hmem => ht (hiff.mp hmem)
    simp [ht, hnm]

/-- When no coin triggers, keeping the non-triggered coins keeps them all. -/
theorem filter_not_triggered_self (f : FetchFn) (coins : List Coin)
    (h : coins.filter (coinTriggered f) = []) :
    coins.filter (fun c => !coinTriggered f c) = coins := by
  apply List.filter_eq_self.mpr
  intro c hc
  have := List.filter_eq_nil_iff.mp h c hc
  simp only [Bool.not_eq_true] at this ⊢
  simp [this]

/-- The end-of-cycle status message, restated through `coinFailed`. -/
theorem statusMsg_eq (f : FetchFn) (coins : List Coin) :
    (if cycleErrs f coins = [] then StatusMsg.lastCheckOk
      else StatusMsg.lastCheckErrors (cycleErrs f coins).length) =
    (if coins.filter (coinFailed f) = [] then StatusMsg.lastCheckOk
      else StatusMsg.lastCheckErrors (coins.filter (coinFailed f)).length) := by
  rw [cycleErrs_eq]
  by_cases he : coins.filter (coinFailed f) = [] <;> simp [he]

/-- Canonical form of `check_prices` on a non-empty rule list with distinct
ids: the kept coins are the non-triggered ones, and the trace is the per-coin
events, then at most one store write, then exactly one status update. -/
theorem check_prices_canonical (f : FetchFn) (coins : List Coin)
    (hne : ¬coins = []) (hnd : (coins.map Coin.id).Nodup) :
    check_prices f coins =
      (coins.filter (fun c => !coinTriggered f c),
        cycleEvents f coins ++
          (if coins.filter (coinTriggered f) = [] then []
           else [Event.saveStore (coins.filter (fun c => !coinTriggered f c))]) ++
          [Event.statusSet (if coins.filter (coinFailed f) = [] then StatusMsg.lastCheckOk
            else StatusMsg.lastCheckErrors (coins.filter (coinFailed f)).length)]) := by
  rw [check_prices_unfold f coins hne, statusMsg_eq]
  by_cases hrem : cycleRemove f coins = []
  · have htrig : coins.filter (coinTriggered f) = [] := by
      rw [cycleRemove_eq] at hrem
      simpa using hrem
    simp [hrem, htrig, filter_not_triggered_self f coins htrig]
  · have htrig : ¬coins.filter (coinTriggered f) = [] := by
      rw [cycleRemove_eq] at hrem
      simpa using hrem
    rw [remove_filter_eq f coins hnd]
    simp [hrem, htrig]

/-- C4 (counterexample): the persistence of a triggered rule's removal does
NOT happen before the next rule is processed. With two rules that both hit,
the trace shows both alarms first and a single store write after the whole
loop; in particular no store write occurs among the first two events. -/
theorem check_prices_no_per_rule_persist :
    (check_prices fetchOk10
        [⟨1, "BTCUSDT".toList, 5, some (">=")⟩, ⟨2, "ETHUSDT".toList, 5, some (">=")⟩]).2 =
      [Event.alarmOpen ("BTCUSDT".toList) 5 10, Event.alarmOpen ("ETHUSDT".toList) 5 10,
        Event.saveStore [], Event.statusSet StatusMsg.lastCheckOk] ∧
    ((check_prices fetchOk10
        [⟨1, "BTCUSDT".toList, 5, some (">=")⟩, ⟨2, "ETHUSDT".toList, 5, some (">=")⟩]).2.take 2).filter
        isSave = [] := by
  constructor
  · decide
  · decide

/-- C4 (amended): on a hit the engine emits exactly one Alarm per triggered
rule; the triggered rules are collected during the cycle and removed from the
list in one batch which is persisted once, after all rules are processed (not
before continuing to the next rule); each triggered rule is removed exactly
once per trigger. Stated for distinct rule ids, as assigned by creation. -/
theorem check_prices_trigger_policy (f : FetchFn) (coins : List Coin)
    (hne : coins ≠ []) (hnd : (coins.map Coin.id).Nodup) :
    (check_prices f coins).1 = coins.filter (fun c => !coinTriggered f c) ∧
    (check_prices f coins).2 =
      cycleEvents f coins ++
        (if coins.filter (coinTriggered f) = [] then []
         else [Event.saveStore (coins.filter (fun c => !coinTriggered f c))]) ++
        [Event.statusSet (if coins.filter (coinFailed f) = [] then StatusMsg.lastCheckOk
          else StatusMsg.lastCheckErrors (coins.filter (coinFailed f)).length)] ∧
    (check_prices f coins).2.filter isAlarm =
      (coins.filter (coinTriggered f)).map
        (fun c => Event.alarmOpen c.symbol c.target_price (priceOf f c)) ∧
    (check_prices f coins).2.filter isSave =
      (if coins.filter (coinTriggered f) = [] then []
       else [Event.saveStore (coins.filter (fun c => !coinTriggered f c))]) := by
  have hc := check_prices_canonical f coins hne hnd
  refine ⟨by rw [hc], by rw [hc], ?_, ?_⟩
  · rw [hc]
    show (cycleEvents f coins ++ _ ++ _).filter isAlarm = _
    rw [List.filter_append, List.filter_append, cycleEvents_filter_alarm]
    by_cases htrig : coins.filter (coinTriggered f) = [] <;> simp [htrig, isAlarm]
  · rw [hc]
    show (cycleEvents f coins ++ _ ++ _).filter isSave = _
    rw [List.filter_append, List.filter_append, cycleEvents_filter_save]
    by_cases htrig : coins.filter (coinTriggered f) = [] <;> simp [htrig, isSave]

/-- C4 witness: two rules with distinct ids, the first triggers at price 10
against target 5, the second (target 20) does not; the first is removed and
the removal is persisted once. -/
theorem check_prices_trigger_policy_witness :
    (check_prices fetchOk10
        [⟨1, "BTCUSDT".toList, 5, some (">=")⟩, ⟨2, "ETHUSDT".toList, 20, some (">=")⟩]).1 =
      [⟨2, "ETHUSDT".toList, 20, some (">=")⟩] ∧
    (check_prices fetchOk10
        [⟨1, "BTCUSDT".toList, 5, some (">=")⟩, ⟨2, "ETHUSDT".toList, 20, some (">=")⟩]).2.filter
        isSave = [Event.saveStore [⟨2, "ETHUSDT".toList, 20, some (">=")⟩]] := by
  have h := check_prices_trigger_policy fetchOk10
    [⟨1, "BTCUSDT".toList, 5, some (">=")⟩, ⟨2, "ETHUSDT".toList, 20, some (">=")⟩]
    (by decide) (by decide)
  constructor
  · rw [h.1]
    decide
  · rw [h.2.2.2]
    decide

/-- C5 (counterexample): the status-line summary does not report a checked
count at all — no reading of the status message can recover the number of
rules checked, because two runs over rule lists of different lengths (one
rule vs. two rules, all succeeding) set the very same status message. -/
theorem check_prices_status_no_checked_count :
    ¬∃ g : StatusMsg → ℕ, ∀ (coins : List Coin) (f : FetchFn), coins ≠ [] →
      g (finalStatus f coins) = coins.length := by
  rintro ⟨g, hg⟩
  have h1 := hg [⟨1, "BTCUSDT".toList, 20, some (">=")⟩] fetchOk10 (by decide)
  have h2 := hg [⟨1, "BTCUSDT".toList, 20, some (">=")⟩, ⟨2, "ETHUSDT".toList, 20, some (">=")⟩]
    fetchOk10 (by decide)
  have e1 : finalStatus fetchOk10 [⟨1, "BTCUSDT".toList, 20, some (">=")⟩] =
      StatusMsg.lastCheckOk := by decide
  have e2 : finalStatus fetchOk10
      [⟨1, "BTCUSDT".toList, 20, some (">=")⟩, ⟨2, "ETHUSDT".toList, 20, some (">=")⟩] =
      StatusMsg.lastCheckOk := by decide
  rw [e1] at h1
  rw [e2] at h2
  rw [h1] at h2
  exact absurd h2 (by norm_num)

/-- C5 (amended): one invocation of `check_prices` over a non-empty rule list
produces exactly one status update, emitted last, after all rules are
processed; it reports the failure count `k` (the number of rules whose price
resolution failed) when `k > 0` and an unparameterized OK message when
`k = 0`. It carries no checked count (the code has no enabled flag and checks
every rule); an empty rule list instead sets a "no alerts" status. -/
theorem check_prices_single_status (f : FetchFn) (coins : List Coin)
    (hne : coins ≠ []) :
    (check_prices f coins).2.filter isStatus =
      [Event.statusSet (if coins.filter (coinFailed f) = [] then StatusMsg.lastCheckOk
        else StatusMsg.lastCheckErrors (coins.filter (coinFailed f)).length)] ∧
    (check_prices f coins).2.getLast? =
      some (Event.statusSet (if coins.filter (coinFailed f) = [] then StatusMsg.lastCheckOk
        else StatusMsg.lastCheckErrors (coins.filter (coinFailed f)).length)) := by
  rw [check_prices_unfold f coins hne]
  constructor
  · show (cycleEvents f coins ++ _ ++ _).filter isStatus = _
    rw [List.filter_append, List.filter_append, cycleEvents_filter_status, statusMsg_eq]
    by_cases hrem : cycleRemove f coins = [] <;> simp [hrem, isStatus]
  · show (cycleEvents f coins ++ _ ++ _).getLast? = _
    rw [List.getLast?_concat, statusMsg_eq]

/-- C5 witness: one rule over a failing network produces exactly one status
update, last in the trace, reporting failure count 1. -/
theorem check_prices_single_status_witness :
    (check_prices fetchFailNet [⟨1, "BTCUSDT".toList, 5, some (">=")⟩]).2.filter isStatus =
      [Event.statusSet (StatusMsg.lastCheckErrors 1)] ∧
    (check_prices fetchFailNet [⟨1, "BTCUSDT".toList, 5, some (">=")⟩]).2.getLast? =
      some (Event.statusSet (StatusMsg.lastCheckErrors 1)) := by
  have h := check_prices_single_status fetchFailNet [⟨1, "BTCUSDT".toList, 5, some (">=")⟩]
    (by decide)
  constructor
  · rw [h.1]
    decide
  · rw [h.2]
    decide

/-- C6 (counterexample): a rule whose price resolution fails DOES surface
through an interrupting per-symbol dialog — the trace of a failing run
contains a warning-dialog event for the symbol. -/
theorem check_prices_failure_dialog :
    Event.warnDialog ("BTCUSDT".toList) ∈
      (check_prices fetchFailNet [⟨1, "BTCUSDT".toList, 5, some (">=")⟩]).2 := by
  decide

/-- C6 (amended): for every rule whose price resolution fails, the engine
records the failure in the failure count, logs it, pops one warning dialog
for that symbol, and continues to the next rule without aborting the cycle —
the remaining rules are still evaluated and the aggregate status line reports
the total failure count. -/
theorem check_prices_failure_handling (f : FetchFn) (coins : List Coin)
    (hne : coins ≠ []) :
    (check_prices f coins).2.filter isWarn =
      (coins.filter (coinFailed f)).map (fun c => Event.warnDialog c.symbol) ∧
    (check_prices f coins).2.filter isLog =
      (coins.filter (coinFailed f)).map (fun c => Event.logFail c.symbol (errOf f c)) ∧
    (check_prices f coins).2.filter isAlarm =
      (coins.filter (coinTriggered f)).map
        (fun c => Event.alarmOpen c.symbol c.target_price (priceOf f c)) ∧
    finalStatus f coins =
      (if coins.filter (coinFailed f) = [] then StatusMsg.lastCheckOk
       else StatusMsg.lastCheckErrors (coins.filter (coinFailed f)).length) := by
  refine ⟨?_, ?_, ?_, ?_⟩
  · rw [check_prices_unfold f coins hne]
    show (cycleEvents f coins ++ _ ++ _).filter isWarn = _
    rw [List.filter_append, List.filter_append, cycleEvents_filter_warn]
    by_cases hrem : cycleRemove f coins = [] <;> simp [hrem, isWarn]
  · rw [check_prices_unfold f coins hne]
    show (cycleEvents f coins ++ _ ++ _).filter isLog = _
    rw [List.filter_append, List.filter_append, cycleEvents_filter_log]
    by_cases hrem : cycleRemove f coins = [] <;> simp [hrem, isLog]
  · rw [check_prices_unfold f coins hne]
    show (cycleEvents f coins ++ _ ++ _).filter isAlarm = _
    rw [List.filter_append, List.filter_append, cycleEvents_filter_alarm]
    by_cases hrem : cycleRemove f coins = [] <;> simp [hrem, isAlarm]
  · unfold finalStatus
    rw [check_prices_unfold f coins hne]
    show (match (cycleEvents f coins ++ _ ++ _).getLast? with
      | some (Event.statusSet m) => m
      | _ => StatusMsg.noAlerts) = _
    rw [List.getLast?_concat, statusMsg_eq]

/-- C6 witness: a mixed run — the first symbol fails, the second succeeds and
triggers — records one warning, one log line, still fires the second rule's
alarm, and reports failure count 1. -/
theorem check_prices_failure_handling_witness :
    (check_prices
        (fun s => if s = "BTCUSDT".toList then .error ("boom") else .ok 10)
        [⟨1, "BTCUSDT".toList, 5, some (">=")⟩, ⟨2, "ETHUSDT".toList, 5, some (">=")⟩]).2.filter
        isWarn = [Event.warnDialog ("BTCUSDT".toList)] ∧
    (check_prices
        (fun s => if s = "BTCUSDT".toList then .error ("boom") else .ok 10)
        [⟨1, "BTCUSDT".toList, 5, some (">=")⟩, ⟨2, "ETHUSDT".toList, 5, some (">=")⟩]).2.filter
        isAlarm = [Event.alarmOpen ("ETHUSDT".toList) 5 10] ∧
    finalStatus (fun s => if s = "BTCUSDT".toList then .error ("boom") else .ok 10)
        [⟨1, "BTCUSDT".toList, 5, some (">=")⟩, ⟨2, "ETHUSDT".toList, 5, some (">=")⟩] =
      StatusMsg.lastCheckErrors 1 := by
  have h := check_prices_failure_handling
    (fun s => if s = "BTCUSDT".toList then .error ("boom") else .ok 10)
    [⟨1, "BTCUSDT".toList, 5, some (">=")⟩, ⟨2, "ETHUSDT".toList, 5, some (">=")⟩]
    (by decide)
  refine ⟨?_, ?_, ?_⟩
  · rw [h.1]
    decide
  · rw [h.2.2.1]
    decide
  · rw [h.2.2.2]
    decide

/-- C9 (counterexample): a rule whose target price is NaN — not a positive
decimal — enters the store. Python's `float("nan")` parses without raising,
and the guard `if price <= 0` at src/main.py lines 596–598 (and 316–318) is
false for NaN under IEEE comparison, so `add_alert` appends the rule and
`validate` accepts the edit. -/
theorem add_alert_accepts_nan :
    add_alert [] 7 ("btc".toList) ("USDT".toList) (some PyFloat.nan) (">=") =
      [⟨7, "BTCUSDT".toList, PyFloat.nan, some (">=")⟩] ∧
    isPosDecimal PyFloat.nan = false ∧
    validate ("btc".toList) ("USDT".toList) (some PyFloat.nan) (">=") =
      some ("BTCUSDT".toList, PyFloat.nan, ">=") := by
  refine ⟨by decide, by decide, by decide⟩

/-- C9 (amended): a rule enters the store via `add_alert` (or passes the edit
dialog's `validate`) exactly when the normalized symbol is non-empty, the
target price parses and the Python comparison `price <= 0` is false — which
admits every positive decimal but also NaN and `+inf` — and the condition is
one of "\x3e=" and "\x3c="; on an input with an empty normalized symbol, a
raising price parse, a parsed price with `price <= 0` true, or an
unrecognized condition, the rule list is left unchanged and the edit is
rejected, while on an accepted input exactly the one validated rule is
appended. -/
theorem add_alert_validation (coins : List CoinEntry) (newId : Nat) (symRaw q : List Char)
    (priceParsed : Option PyFloat) (cond : String) :
    (∀ p, priceParsed = some p → pyLe0 p = false → normalize_symbol symRaw q ≠ [] →
      (cond = ">=" ∨ cond = "<=") →
      add_alert coins newId symRaw q priceParsed cond =
          coins ++ [⟨newId, normalize_symbol symRaw q, p, some cond⟩] ∧
        validate symRaw q priceParsed cond =
          some (normalize_symbol symRaw q, p, cond)) ∧
    ((normalize_symbol symRaw q = [] ∨ priceParsed = none ∨
        (∃ p, priceParsed = some p ∧ pyLe0 p = true) ∨ (cond ≠ ">=" ∧ cond ≠ "<=")) →
      add_alert coins newId symRaw q priceParsed cond = coins ∧
        validate symRaw q priceParsed cond = none) := by
  constructor
  · intro p hp hpos hsym hcond
    unfold add_alert validate
    rw [hp]
    simp [hsym, hpos, hcond]
  · intro hbad
    unfold add_alert validate
    rcases hbad with hsym | hp | ⟨p, hp, hple⟩ | ⟨h1, h2⟩
    · simp [hsym]
    · rw [hp]
      by_cases hsym : normalize_symbol symRaw q = [] <;> simp [hsym]
    · rw [hp]
      by_cases hsym : normalize_symbol symRaw q = [] <;> simp [hsym, hple]
    · have hcond : ¬(cond = ">=" ∨ cond = "<=") := by
        intro hor
        rcases hor with h | h
        · exact h1 h
        · exact h2 h
      by_cases hsym : normalize_symbol symRaw q = []
      · simp [hsym]
      · cases hp : priceParsed with
        | none => simp [hsym]
        | some p =>
          by_cases hple : pyLe0 p = true <;>
            simp [hsym, hple, hcond]

/-- C9 witness: the valid input ("btc", 5, "\x3e=") is appended as the
normalized rule, and the same input with the unrecognized condition "!!" or
the non-positive price 0 leaves the (empty) rule list unchanged. -/
theorem add_alert_validation_witness :
    add_alert [] 7 ("btc".toList) ("USDT".toList) (some (PyFloat.num 5)) (">=") =
      [⟨7, "BTCUSDT".toList, PyFloat.num 5, some (">=")⟩] ∧
    add_alert [] 7 ("btc".toList) ("USDT".toList) (some (PyFloat.num 5)) ("!!") = [] ∧
    add_alert [] 7 ("btc".toList) ("USDT".toList) (some (PyFloat.num 0)) (">=") = [] ∧
    validate ("btc".toList) ("USDT".toList) (some (PyFloat.num 5)) (">=") =
      some ("BTCUSDT".toList, PyFloat.num 5, ">=") := by
  have h1 := (add_alert_validation [] 7 ("btc".toList) ("USDT".toList)
    (some (PyFloat.num 5)) (">=")).1 (PyFloat.num 5) rfl (by decide) (by decide) (Or.inl rfl)
  have h2 := (add_alert_validation [] 7 ("btc".toList) ("USDT".toList)
    (some (PyFloat.num 5)) ("!!")).2 (Or.inr (Or.inr (Or.inr ⟨by decide, by decide⟩)))
  have h3 := (add_alert_validation [] 7 ("btc".toList) ("USDT".toList)
    (some (PyFloat.num 0)) (">=")).2
    (Or.inr (Or.inr (Or.inl ⟨PyFloat.num 0, rfl, by decide⟩)))
  refine ⟨?_, h2.1, h3.1, ?_⟩
  · rw [h1.1]
    decide
  · rw [h1.2]
    decide

end CryptoAlert
